import Mathlib

set_option maxHeartbeats 1000000

/-
Formal model of the vanity SSH key search engine in src/src-rust/main.rs.

Byte strings are modelled as `List Nat` (byte values), u64 arithmetic is
taken modulo 2 ^ 64, and the external collaborators (Ed25519 keypair
generation, the ssh-key encoder, the memchr family) enter the model only
through their interface behaviour, as the design treats them.
-/

/-- ASCII lowercase conversion, from fn to_lowercase (main.rs:197-203):
bytes in b'A'..=b'Z' (65..=90) get b'a' - b'A' (= 32) added. -/
def to_lowercase (b : Nat) : Nat :=
  if 65 ≤ b ∧ b ≤ 90 then b + 32 else b

/-- Interface behaviour of memchr::memchr / memchr2: index of the first
element satisfying the predicate. -/
def firstIdx (p : Nat → Bool) : List Nat → Option Nat
  | [] => none
  | b :: rest => if p b then some 0 else (firstIdx p rest).map (· + 1)

/-- memchr::memchr b: first occurrence of byte b. -/
def memchr (b : Nat) (l : List Nat) : Option Nat := firstIdx (fun x => x == b) l

/-- memchr::memchr2 b1 b2: first occurrence of either byte. -/
def memchr2 (b1 b2 : Nat) (l : List Nat) : Option Nat :=
  firstIdx (fun x => x == b1 || x == b2) l

/-- memchr::memmem::find: index of the leftmost occurrence of needle in
haystack (used on the case-sensitive path, main.rs:103). -/
def memmemFind (haystack needle : List Nat) : Option Nat :=
  firstIdx (fun i => List.take needle.length (List.drop i haystack) == needle)
    (List.range (haystack.length + 1 - needle.length))

/-- The inner verification loop `for j in 1..needle.len()` of
contains_bytes_ignore_case (main.rs:173-181): compares `rem` further
positions starting at needle offset `j`, lower-casing only the haystack
byte (the needle is assumed already lower-cased, main.rs:176). -/
def verifyRest (haystack needle : List Nat) (actual_pos : Nat) : Nat → Nat → Bool
  | _, 0 => true
  | j, rem + 1 =>
    (to_lowercase (haystack.getD (actual_pos + j) 0) == needle.getD j 0) &&
    verifyRest haystack needle actual_pos (j + 1) rem

/-- The `while start <= haystack.len().saturating_sub(needle.len())` loop of
contains_bytes_ignore_case (main.rs:154-191). `start` strictly increases on
every iteration, so fuel `haystack.length + 1` (supplied at the call site)
always suffices; the fuel-0 branch is unreachable with that fuel. -/
def cbicLoop (haystack needle : List Nat) (f fU : Nat) : Nat → Nat → Bool
  | _, 0 => false
  | start, fuel + 1 =>
    if start ≤ haystack.length - needle.length then
      match (if f ≠ fU then memchr2 f fU (haystack.drop start)
             else memchr f (haystack.drop start)) with
      | some offset =>
        let actual_pos := start + offset
        if actual_pos + needle.length > haystack.length then false
        else if verifyRest haystack needle actual_pos 1 (needle.length - 1) then true
        else cbicLoop haystack needle f fU (actual_pos + 1) fuel
      | none => false
    else false

/-- fn contains_bytes_ignore_case (main.rs:120-194): empty needle matches
trivially; a needle longer than the haystack never matches; a single-byte
needle is searched via memchr/memchr2 over both case variants; longer
needles scan for the first byte in either case and verify the rest. -/
def contains_bytes_ignore_case (haystack needle : List Nat) : Bool :=
  if needle = [] then true
  else if needle.length > haystack.length then false
  else if needle.length = 1 then
    let target_byte := needle.getD 0 0
    let upper_byte :=
      if 97 ≤ target_byte ∧ target_byte ≤ 122 then target_byte - 32 else target_byte
    if target_byte ≠ upper_byte then (memchr2 target_byte upper_byte haystack).isSome
    else (memchr target_byte haystack).isSome
  else
    let first_needle_byte := needle.getD 0 0
    let first_upper :=
      if 97 ≤ first_needle_byte ∧ first_needle_byte ≤ 122
      then first_needle_byte - 32 else first_needle_byte
    cbicLoop haystack needle first_needle_byte first_upper 0 (haystack.length + 1)

/-- One-position check of the naive reference search: does `needle` start at
the head of the list. -/
def startsWithBytes : List Nat → List Nat → Bool
  | _, [] => true
  | [], _ :: _ => false
  | a :: as, b :: bs => (a == b) && startsWithBytes as bs

/-- Naive substring search, the reference implementation named by the spec. -/
def naiveContains (needle : List Nat) : List Nat → Bool
  | [] => startsWithBytes [] needle
  | a :: t => startsWithBytes (a :: t) needle || naiveContains needle t

/-- The spec's reference for case-insensitive matching: independently
lower-case both operands, then search naively. -/
def refContainsIgnoreCase (haystack needle : List Nat) : Bool :=
  naiveContains (needle.map to_lowercase) (haystack.map to_lowercase)

/-- A case-insensitive match of `needle` at position `i` of `haystack`. -/
def matchAt (haystack needle : List Nat) (i : Nat) : Prop :=
  i + needle.length ≤ haystack.length ∧
  ∀ j, j < needle.length → to_lowercase (haystack.getD (i + j) 0) = needle.getD j 0

/-- 2 ^ 64: u64 values wrap modulo this. -/
def u64Mod : Nat := 2 ^ 64

/-- Stats::new (main.rs:20-25): the attempt counter starts at 0. -/
def statsNew : Nat := 0

/-- Stats::add (main.rs:27-29): AtomicU64::fetch_add, wrapping mod 2 ^ 64. -/
def statsAdd (attempts count : Nat) : Nat := (attempts + count) % u64Mod

/-- The counter value Stats::get_attempts returns after a sequence of add
calls starting from Stats::new. -/
def totalAfter (adds : List Nat) : Nat := adds.foldl statsAdd statsNew

/-- The three store sites of the `found` flag in the source: the matching
worker (main.rs:233), the Ctrl-C handler (main.rs:379) and the scheduler
after collecting the result (main.rs:401). -/
inductive FlagWrite where
  | workerMatch
  | interruptHandler
  | schedulerDone
deriving DecidableEq

/-- The value each store site writes: literally `true` at all three. -/
def storedValue : FlagWrite → Bool
  | .workerMatch => true
  | .interruptHandler => true
  | .schedulerDone => true

/-- AtomicBool::store: the new value replaces the current one. -/
def applyWrite (_current : Bool) (w : FlagWrite) : Bool := storedValue w

/-- Flag value after a sequence of stores, in program order. -/
def flagAfter (init : Bool) (ws : List FlagWrite) : Bool := ws.foldl applyWrite init

/-- Result of a successful attempt (struct KeyResult, main.rs:52-56). The
private key is opaque external data and is represented by the encoded
public-key text that accompanies it. -/
structure KeyResult where
  ssh_pub_key : List Nat
  attempts : Nat
deriving DecidableEq

/-- Outcome of one call to the external generation/encoding collaborators
inside generate_and_check_key: PrivateKey::new can fail (main.rs:92-95),
to_openssh can fail (main.rs:98), otherwise the encoded public key text is
produced. -/
inductive GenOutcome where
  | privFail
  | encodeFail
  | encoded (text : List Nat)
deriving DecidableEq

/-- The matching step of generate_and_check_key (main.rs:102-106). -/
def matchesTarget (public_key_bytes target : List Nat) (case_sensitive : Bool) : Bool :=
  if case_sensitive then (memmemFind public_key_bytes target).isSome
  else contains_bytes_ignore_case public_key_bytes target

/-- fn generate_and_check_key (main.rs:81-117), with the generation/encoding
collaborators abstracted into the supplied outcome. Both `.ok()?` failure
exits return None, exactly like a non-matching attempt does; the attempts
field is 0 and is overwritten by the caller (main.rs:112). -/
def generate_and_check_key (g : GenOutcome) (target : List Nat) (case_sensitive : Bool) :
    Option KeyResult :=
  match g with
  | .privFail => none
  | .encodeFail => none
  | .encoded public_key_bytes =>
    if matchesTarget public_key_bytes target case_sensitive then
      some { ssh_pub_key := public_key_bytes, attempts := 0 }
    else none

/-- Environment of one worker: gen n is the outcome of its n-th call (1-based)
to the generation collaborators, flagAt n the value it observes when loading
the shared `found` flag after having made n attempts. -/
structure WorkerEnv where
  gen : Nat → GenOutcome
  flagAt : Nat → Bool

/-- batch_size (main.rs:211). -/
def batchSize : Nat := 1000

/-- Result of the inner for-loop of fn worker: either the worker function
returns (with its result), or the batch ran to completion. -/
inductive BatchOut where
  | ret (r : Option KeyResult)
  | done (attempts made : Nat)
deriving DecidableEq

/-- The inner `for _ in 0..batch_size` loop of fn worker (main.rs:223-241):
each iteration increments the local attempt count, generates and checks a
key; on a match it publishes stats.get_attempts() + attempts (a wrapping u64
sum) as the result's attempt count and returns it (the accompanying
found.store(true) is covered by the FlagWrite model); every 100 local
attempts it re-reads the flag and returns None if set. -/
def batchStep (env : WorkerEnv) (target : List Nat) (cs : Bool) (stats : Nat) :
    Nat → Nat → Nat → BatchOut
  | 0, attempts, made => .done attempts made
  | iters + 1, attempts, made =>
    match generate_and_check_key (env.gen (made + 1)) target cs with
    | some key_result =>
      .ret (some { key_result with attempts := (stats + (attempts + 1)) % u64Mod })
    | none =>
      if (attempts + 1) % 100 == 0 && env.flagAt (made + 1) then .ret none
      else batchStep env target cs stats iters (attempts + 1) (made + 1)

/-- The outer `while !found.load()` loop of fn worker (main.rs:221-247),
returning the worker's result together with the final value of the shared
counter; after a completed batch, stats.add(batch_size) runs and the local
count resets. `fuel` bounds how many batches of the unbounded loop are
modelled. -/
def workerLoop (env : WorkerEnv) (target : List Nat) (cs : Bool) :
    Nat → Nat → Nat → Option KeyResult × Nat
  | 0, stats, _ => (none, stats)
  | fuel + 1, stats, made =>
    if env.flagAt made then (none, stats)
    else
      match batchStep env target cs stats batchSize 0 made with
      | .ret r => (r, stats)
      | .done _ made' => workerLoop env target cs fuel (statsAdd stats batchSize) made'

/-- Target preparation at worker start (main.rs:214-219): in case-insensitive
mode the target is lower-cased once (ASCII, per byte). -/
def prepare_target (target : List Nat) (case_sensitive : Bool) : List Nat :=
  if case_sensitive then target else target.map to_lowercase

/-- fn worker, run from a fresh shared state (stats = 0, no attempts made). -/
def worker (env : WorkerEnv) (target : List Nat) (cs : Bool) (fuel : Nat) :
    Option KeyResult × Nat :=
  workerLoop env (prepare_target target cs) cs fuel 0 0

/-- struct Config (main.rs:60-66). -/
structure Config where
  target : String
  case_sensitive : Bool
  num_threads : Nat
  private_key_file : String
  public_key_file : String
deriving DecidableEq

/-- Config::default (main.rs:68-78). -/
def defaultConfig (numCpus : Nat) : Config :=
  { target := ""
    case_sensitive := true
    num_threads := numCpus * 3
    private_key_file := "id_ed25519"
    public_key_file := "id_ed25519.pub" }

/-- The command line after clap parsing (main.rs:333-348): the required
positional target and the --ci flag. -/
structure CliArgs where
  target : String
  ciFlag : Bool
deriving DecidableEq

/-- main.rs:350-354: the configuration built from parsed arguments. The --ci
flag only feeds ci_mode; case_sensitive is unconditionally set to true. -/
def buildConfig (numCpus : Nat) (args : CliArgs) : Config :=
  { defaultConfig numCpus with target := args.target, case_sensitive := true }

/-- How far main gets before spawning anything: either a fatal configuration
error (eprintln + exit(1), main.rs:356-359) or the search phase, which is
where the reporter thread and the worker pool are spawned. -/
inductive MainPhase where
  | configError (msg : String)
  | search (config : Config) (ciMode : Bool)
deriving DecidableEq

/-- main.rs:350-395: build the configuration, reject an empty target fatally
before any worker or reporter thread is spawned, otherwise proceed to the
search with ci_mode forwarded to the reporter. -/
def mainSetup (numCpus : Nat) (args : CliArgs) : MainPhase :=
  let config := buildConfig numCpus args
  let ciMode := args.ciFlag
  if config.target = "" then MainPhase.configError "Error: target sequence cannot be empty"
  else MainPhase.search config ciMode

/-- Encoded text "xxAAAAxx" from the spec's stub-generator scenario. -/
def stubHitText : List Nat := [120, 120, 65, 65, 65, 65, 120, 120]

/-- A non-matching encoded text of the same length. -/
def stubMissText : List Nat := [120, 120, 120, 120, 120, 120, 120, 120]

/-- Target "AAAA" from the spec's stub-generator scenario. -/
def stubTargetAAAA : List Nat := [65, 65, 65, 65]

/-- Stub generator from the spec scenario: the 7th call yields a hit, every
other call a miss; the flag is never set externally. -/
def stubEnv : WorkerEnv :=
  { gen := fun n => if n == 7 then .encoded stubHitText else .encoded stubMissText
    flagAt := fun _ => false }

/-- Environment whose first attempt fails inside key construction and whose
second attempt yields a matching encoding. -/
def envFail : WorkerEnv :=
  { gen := fun n =>
      if n == 1 then .privFail
      else if n == 2 then .encoded stubHitText
      else .encoded stubMissText
    flagAt := fun _ => false }

/-- Environment that never matches and whose cancellation flag reads true
from the 100th attempt on. -/
def envCancel : WorkerEnv :=
  { gen := fun _ => .encoded stubMissText
    flagAt := fun n => decide (100 ≤ n) }

/-- Two booleans agreeing as propositions are equal. -/
theorem bool_eq_of_iff {a b : Bool} (h : a = true ↔ b = true) : a = b := by
  cases a <;> cases b <;> simp_all

/-- Once the flag holds true, any further stores keep it true, because every
store site writes true. -/
theorem flagAfter_true : ∀ ws : List FlagWrite, flagAfter true ws = true := by
  intro ws
  induction ws with
  | nil => rfl
  | cons w t ih =>
    show flagAfter (applyWrite true w) t = true
    have hw : applyWrite true w = true := by cases w <;> rfl
    rw [hw]; exact ih

/-- Claim C4 (confirmed): the cancellation flag is a monotonic latch. Every
store site in the program (matching worker, interrupt handler, scheduler)
writes true, and once the flag is true it remains true under any further
sequence of stores; it is never reset to false. -/
theorem cancellation_flag_monotonic_latch :
    (∀ w : FlagWrite, storedValue w = true) ∧
    (∀ (init : Bool) (ws ws' : List FlagWrite),
      flagAfter init ws = true → flagAfter init (ws ++ ws') = true) := by
  constructor
  · intro w; cases w <;> rfl
  · intro init ws ws' h
    have happ : flagAfter init (ws ++ ws') = flagAfter (flagAfter init ws) ws' := by
      simp [flagAfter, List.foldl_append]
    rw [happ, h]
    exact flagAfter_true ws'

/-- Witness for C4 at a concrete store sequence. -/
theorem cancellation_flag_monotonic_latch_witness :
    flagAfter false ([FlagWrite.workerMatch] ++ [FlagWrite.schedulerDone]) = true :=
  cancellation_flag_monotonic_latch.2 false [FlagWrite.workerMatch]
    [FlagWrite.schedulerDone] (by decide)

/-- Claim C5 (counterexample): the attempt counter is a wrapping u64, so two
adds of 2 ^ 63 leave total() at 0, not at the mathematical sum 2 ^ 64. -/
theorem stats_add_overflow_cex :
    totalAfter [2 ^ 63, 2 ^ 63] = 0 ∧ List.sum [2 ^ 63, 2 ^ 63] = 2 ^ 64 ∧
    (0 : Nat) ≠ 2 ^ 64 := by
  refine ⟨?_, by decide, by decide⟩
  decide

/-- Accumulating through statsAdd is addition modulo 2 ^ 64. -/
theorem foldl_statsAdd (l : List Nat) :
    ∀ a : Nat, List.foldl statsAdd (a % u64Mod) l = (a + l.sum) % u64Mod := by
  induction l with
  | nil => intro a; simp
  | cons n t ih =>
    intro a
    show List.foldl statsAdd (statsAdd (a % u64Mod) n) t = _
    have h1 : statsAdd (a % u64Mod) n = (a + n) % u64Mod := by
      simp [statsAdd, Nat.mod_add_mod]
    rw [h1, ih (a + n)]
    simp [List.sum_cons, Nat.add_assoc]

/-- Claim C5 (amended): after any sequence of add calls the counter holds the
sum modulo 2 ^ 64; the value is order-independent, and equals the exact sum
whenever that sum fits in a u64. -/
theorem stats_total_mod_u64 :
    (∀ adds : List Nat, totalAfter adds = adds.sum % u64Mod) ∧
    (∀ adds adds' : List Nat, List.Perm adds adds' → totalAfter adds = totalAfter adds') ∧
    (∀ adds : List Nat, adds.sum < u64Mod → totalAfter adds = adds.sum) := by
  have key : ∀ adds : List Nat, totalAfter adds = adds.sum % u64Mod := by
    intro adds
    have h0 : (statsNew : Nat) = 0 % u64Mod := by decide
    rw [totalAfter, h0, foldl_statsAdd adds 0, Nat.zero_add]
  refine ⟨key, ?_, ?_⟩
  · intro adds adds' hperm
    rw [key, key, hperm.sum_eq]
  · intro adds hlt
    rw [key, Nat.mod_eq_of_lt hlt]

/-- Witness for C5's amended statement at a concrete add sequence. -/
theorem stats_total_mod_u64_witness : totalAfter [3, 4] = List.sum [3, 4] :=
  stats_total_mod_u64.2.2 [3, 4] (by decide)

/-- Claim C10 (confirmed): the empty needle matches any haystack in both the
case-sensitive and the case-insensitive mode. -/
theorem empty_needle_matches (haystack : List Nat) (case_sensitive : Bool) :
    matchesTarget haystack [] case_sensitive = true := by
  cases case_sensitive with
  | false => simp [matchesTarget, contains_bytes_ignore_case]
  | true =>
    have h1 : memmemFind haystack [] = some 0 := by
      simp [memmemFind, List.range_succ_eq_map, firstIdx]
    simp [matchesTarget, h1]

/-- Claim C9 (confirmed): a needle longer than the haystack never matches, in
either mode; the length test precedes any scan. -/
theorem needle_longer_than_haystack_false (haystack needle : List Nat) (cs : Bool)
    (h : haystack.length < needle.length) :
    matchesTarget haystack needle cs = false := by
  cases cs with
  | true =>
    have hz : haystack.length + 1 - needle.length = 0 := by omega
    have h1 : memmemFind haystack needle = none := by
      simp [memmemFind, hz, List.range_zero, firstIdx]
    simp [matchesTarget, h1]
  | false =>
    have hne : needle ≠ [] := by
      intro hn
      rw [hn] at h
      simp at h
    have hgt : needle.length > haystack.length := h
    simp [matchesTarget, contains_bytes_ignore_case, hne, hgt]

/-- Witness for C9 in both modes at a concrete input. -/
theorem needle_longer_than_haystack_false_witness :
    matchesTarget [97] [97, 98] true = false ∧ matchesTarget [97] [97, 98] false = false :=
  ⟨needle_longer_than_haystack_false [97] [97, 98] true (by decide),
   needle_longer_than_haystack_false [97] [97, 98] false (by decide)⟩

/-- Claim C3 (confirmed): every CLI invocation that reaches the search phase
runs with case_sensitive = true — the --ci flag only selects the reporter's
output mode — so the matcher actually exercised is the case-sensitive memmem
search and the case-insensitive matcher is unreachable from the command
line. -/
theorem cli_config_always_case_sensitive (numCpus : Nat) (args : CliArgs)
    (config : Config) (ciMode : Bool) (text target : List Nat)
    (h : mainSetup numCpus args = MainPhase.search config ciMode) :
    config.case_sensitive = true ∧ ciMode = args.ciFlag ∧
    matchesTarget text target config.case_sensitive = (memmemFind text target).isSome := by
  unfold mainSetup at h
  by_cases he : (buildConfig numCpus args).target = ""
  · rw [if_pos he] at h
    exact absurd h (by intro hc; cases hc)
  · rw [if_neg he] at h
    injection h with h1 h2
    subst h1
    subst h2
    exact ⟨rfl, rfl, rfl⟩

/-- Witness for C3 at a concrete invocation with the --ci flag set. -/
theorem cli_config_always_case_sensitive_witness :
    (buildConfig 1 { target := "AAAA", ciFlag := true }).case_sensitive = true ∧
    true = ({ target := "AAAA", ciFlag := true } : CliArgs).ciFlag ∧
    matchesTarget [65] [65]
      (buildConfig 1 { target := "AAAA", ciFlag := true }).case_sensitive
      = (memmemFind [65] [65]).isSome :=
  cli_config_always_case_sensitive 1 { target := "AAAA", ciFlag := true }
    (buildConfig 1 { target := "AAAA", ciFlag := true }) true [65] [65] (by decide)

/-- Claim C8 (confirmed): an empty target is detected right after argument
parsing: main terminates in the fatal configuration-error phase and never
reaches the phase that spawns the reporter and the workers. -/
theorem empty_target_config_error (numCpus : Nat) (args : CliArgs)
    (config : Config) (ciMode : Bool) (h : args.target = "") :
    mainSetup numCpus args = MainPhase.configError "Error: target sequence cannot be empty" ∧
    mainSetup numCpus args ≠ MainPhase.search config ciMode := by
  have ht : (buildConfig numCpus args).target = "" := h
  constructor
  · unfold mainSetup
    rw [if_pos ht]
  · unfold mainSetup
    rw [if_pos ht]
    intro hc
    cases hc

/-- Witness for C8 at the concrete empty-target invocation. -/
theorem empty_target_config_error_witness :
    mainSetup 1 { target := "", ciFlag := false }
      = MainPhase.configError "Error: target sequence cannot be empty" ∧
    mainSetup 1 { target := "", ciFlag := false }
      ≠ MainPhase.search (defaultConfig 1) false :=
  empty_target_config_error 1 { target := "", ciFlag := false } (defaultConfig 1) false rfl

/-- Claim C2 (counterexample): with a construction failure on attempt 1 and a
matching encoding on attempt 2, the worker does not stop cleanly and report
nothing after the failure: it keeps looping and returns the attempt-2 match. -/
theorem worker_continues_after_generation_failure_cex :
    envFail.gen 1 = GenOutcome.privFail ∧
    workerLoop envFail stubTargetAAAA true 1 0 0 =
      (some { ssh_pub_key := stubHitText, attempts := 2 }, 0) :=
  ⟨rfl, by decide⟩

/-- Claim C2 (amended): when key construction or encoding fails inside an
attempt, generate_and_check_key returns None, indistinguishable from a
non-matching attempt; the worker counts the failed attempt and continues its
batch loop with the next attempt instead of stopping. -/
theorem generation_failure_indistinguishable (env : WorkerEnv) (t : List Nat)
    (cs : Bool) (stats iters attempts made : Nat)
    (hfail : env.gen (made + 1) = GenOutcome.privFail ∨
             env.gen (made + 1) = GenOutcome.encodeFail)
    (hchk : ((attempts + 1) % 100 == 0 && env.flagAt (made + 1)) = false) :
    generate_and_check_key (env.gen (made + 1)) t cs = none ∧
    batchStep env t cs stats (iters + 1) attempts made =
      batchStep env t cs stats iters (attempts + 1) (made + 1) := by
  have hnone : generate_and_check_key (env.gen (made + 1)) t cs = none := by
    rcases hfail with h | h <;> rw [h] <;> rfl
  refine ⟨hnone, ?_⟩
  rw [batchStep, hnone, hchk]
  simp

/-- Witness for C2's amended statement at a concrete failing attempt. -/
theorem generation_failure_indistinguishable_witness :
    generate_and_check_key (envFail.gen (0 + 1)) stubTargetAAAA true = none ∧
    batchStep envFail stubTargetAAAA true 0 (0 + 1) 0 0 =
      batchStep envFail stubTargetAAAA true 0 0 (0 + 1) (0 + 1) :=
  generation_failure_indistinguishable envFail stubTargetAAAA true 0 0 0 0
    (Or.inl rfl) (by decide)

/-- Claim C6 (confirmed): when the k-th attempt of a batch is the first to
produce a result (and no earlier sub-interval check observed the flag), the
batch returns that result carrying attempt count stats.get_attempts() +
local attempts — the global total read at that moment plus the worker's
locally-accumulated count — as a wrapping u64 sum. -/
theorem match_publishes_local_plus_global_attempts (env : WorkerEnv) (t : List Nat)
    (cs : Bool) (stats : Nat) :
    ∀ (k iters attempts made : Nat) (kr0 : KeyResult),
    1 ≤ k → k ≤ iters →
    generate_and_check_key (env.gen (made + k)) t cs = some kr0 →
    (∀ m, m < k → 1 ≤ m → generate_and_check_key (env.gen (made + m)) t cs = none) →
    (∀ m, m < k → 1 ≤ m → (attempts + m) % 100 = 0 → env.flagAt (made + m) = false) →
    batchStep env t cs stats iters attempts made =
      BatchOut.ret (some { kr0 with attempts := (stats + (attempts + k)) % u64Mod }) := by
  intro k
  induction k with
  | zero => intro iters attempts made kr0 h1; omega
  | succ kp ih =>
    intro iters attempts made kr0 _ hk hgen hprev hflags
    obtain ⟨it, rfl⟩ : ∃ it, iters = it + 1 := ⟨iters - 1, by omega⟩
    rcases Nat.eq_zero_or_pos kp with hkp | hkp
    · subst hkp
      rw [batchStep, hgen]
    · have hg1 : generate_and_check_key (env.gen (made + 1)) t cs = none :=
        hprev 1 (by omega) (by omega)
      have hcond : ((attempts + 1) % 100 == 0 && env.flagAt (made + 1)) = false := by
        cases hb : ((attempts + 1) % 100 == 0) with
        | false => rfl
        | true =>
          have hmod : (attempts + 1) % 100 = 0 := by
            have := of_decide_eq_true (by simpa using hb)
            omega
          have hf : env.flagAt (made + 1) = false :=
            hflags 1 (by omega) (by omega) hmod
          rw [hf, Bool.and_false]
      rw [batchStep, hg1, hcond]
      simp only [Bool.false_eq_true, if_false]
      have hrec := ih it (attempts + 1) (made + 1) kr0 hkp (by omega)
        (by rw [show made + 1 + kp = made + (kp + 1) by omega]; exact hgen)
        (by
          intro m hm h1m
          rw [show made + 1 + m = made + (m + 1) by omega]
          exact hprev (m + 1) (by omega) (by omega))
        (by
          intro m hm h1m hmod
          rw [show made + 1 + m = made + (m + 1) by omega]
          refine hflags (m + 1) (by omega) (by omega) ?_
          rw [show attempts + (m + 1) = attempts + 1 + m by omega]
          exact hmod)
      rw [hrec, show attempts + 1 + kp = attempts + (kp + 1) by omega]

/-- Witness for C6: the spec's stub scenario. The generator hits on its 7th
call, no batch has been published, the global total is 0, and the match is
returned with attempt count 7. -/
theorem match_publishes_attempts_witness :
    batchStep stubEnv stubTargetAAAA true 0 batchSize 0 0 =
      BatchOut.ret (some { ssh_pub_key := stubHitText,
                           attempts := (0 + (0 + 7)) % u64Mod }) :=
  match_publishes_local_plus_global_attempts stubEnv stubTargetAAAA true 0 7 batchSize 0 0
    { ssh_pub_key := stubHitText, attempts := 0 }
    (by decide) (by decide) (by decide) (by decide) (by decide)

/-- Characterization of a batch in which no attempt produces a result: the
batch returns early (with nothing) as soon as a 100-attempt sub-interval
check observes the flag, and otherwise runs to completion. -/
theorem batchStep_no_match (env : WorkerEnv) (t : List Nat) (cs : Bool) (stats : Nat) :
    ∀ (iters attempts made : Nat),
    (∀ k, k ≤ iters → 1 ≤ k → generate_and_check_key (env.gen (made + k)) t cs = none) →
    ((∃ k, 1 ≤ k ∧ k ≤ iters ∧ (attempts + k) % 100 = 0 ∧ env.flagAt (made + k) = true) →
        batchStep env t cs stats iters attempts made = BatchOut.ret none) ∧
    ((∀ k, k ≤ iters → 1 ≤ k → (attempts + k) % 100 = 0 → env.flagAt (made + k) = false) →
        batchStep env t cs stats iters attempts made =
          BatchOut.done (attempts + iters) (made + iters)) := by
  intro iters
  induction iters with
  | zero =>
    intro attempts made _
    constructor
    · rintro ⟨k, h1, h2, _, _⟩; omega
    · intro _; rw [batchStep]; congr 1
  | succ it ih =>
    intro attempts made hnm
    have hg1 : generate_and_check_key (env.gen (made + 1)) t cs = none :=
      hnm 1 (by omega) (by omega)
    have ihnext := ih (attempts + 1) (made + 1) (by
      intro k hk h1k
      rw [show made + 1 + k = made + (k + 1) by omega]
      exact hnm (k + 1) (by omega) (by omega))
    constructor
    · rintro ⟨k, h1k, hk, hmod, hflag⟩
      rw [batchStep, hg1]
      by_cases hc : ((attempts + 1) % 100 == 0 && env.flagAt (made + 1)) = true
      · rw [hc]
        simp
      · rw [Bool.not_eq_true] at hc
        rw [hc]
        simp only [Bool.false_eq_true, if_false]
        have hkne1 : k ≠ 1 := by
          intro hk1
          subst hk1
          rw [hmod, hflag] at hc
          simp at hc
        refine ihnext.1 ⟨k - 1, by omega, by omega, ?_, ?_⟩
        · rw [show attempts + 1 + (k - 1) = attempts + k by omega]
          exact hmod
        · rw [show made + 1 + (k - 1) = made + k by omega]
          exact hflag
    · intro hflags
      have hc : ((attempts + 1) % 100 == 0 && env.flagAt (made + 1)) = false := by
        cases hb : ((attempts + 1) % 100 == 0) with
        | false => rfl
        | true =>
          have hmod : (attempts + 1) % 100 = 0 := by
            have := of_decide_eq_true (by simpa using hb)
            omega
          rw [hflags 1 (by omega) (by omega) hmod, Bool.and_false]
      rw [batchStep, hg1, hc]
      simp only [Bool.false_eq_true, if_false]
      rw [ihnext.2 (by
        intro k hk h1k hmod
        rw [show made + 1 + k = made + (k + 1) by omega]
        refine hflags (k + 1) (by omega) (by omega) ?_
        rw [show attempts + (k + 1) = attempts + 1 + k by omega]
        exact hmod)]
      congr 1 <;> omega

/-- Claim C7 (confirmed): if a worker observes the cancellation flag at one of
the 100-attempt sub-interval re-checks of a batch in which no attempt
matches, it returns no result and leaves the shared counter exactly as it
was (no partial progress is published); if instead the full batch completes
with no match and no observed cancellation, the counter is advanced by
exactly batch_size and the loop continues. -/
theorem batch_cancellation_frame (env : WorkerEnv) (t : List Nat) (cs : Bool)
    (stats made fuel : Nat)
    (hnm : ∀ k, k ≤ batchSize → 1 ≤ k →
      generate_and_check_key (env.gen (made + k)) t cs = none) :
    ((∃ k, 1 ≤ k ∧ k ≤ batchSize ∧ k % 100 = 0 ∧ env.flagAt (made + k) = true) →
        batchStep env t cs stats batchSize 0 made = BatchOut.ret none ∧
        workerLoop env t cs (fuel + 1) stats made = (none, stats)) ∧
    ((∀ k, k ≤ batchSize → 1 ≤ k → k % 100 = 0 → env.flagAt (made + k) = false) →
      env.flagAt made = false →
        batchStep env t cs stats batchSize 0 made =
          BatchOut.done batchSize (made + batchSize) ∧
        workerLoop env t cs (fuel + 1) stats made =
          workerLoop env t cs fuel (statsAdd stats batchSize) (made + batchSize)) := by
  have hchar := batchStep_no_match env t cs stats batchSize 0 made hnm
  constructor
  · intro hex
    have hbs : batchStep env t cs stats batchSize 0 made = BatchOut.ret none := by
      refine hchar.1 ?_
      obtain ⟨k, h1, h2, h3, h4⟩ := hex
      exact ⟨k, h1, h2, by simpa using h3, h4⟩
    refine ⟨hbs, ?_⟩
    rw [workerLoop]
    by_cases hf : env.flagAt made = true
    · rw [hf]; simp
    · rw [Bool.not_eq_true] at hf
      rw [hf]
      simp only [Bool.false_eq_true, if_false]
      rw [hbs]
  · intro hflags hf
    have hbs : batchStep env t cs stats batchSize 0 made =
        BatchOut.done batchSize (made + batchSize) := by
      have := hchar.2 (by
        intro k hk h1k hmod
        exact hflags k hk h1k (by simpa using hmod))
      simpa using this
    refine ⟨hbs, ?_⟩
    rw [workerLoop, hf]
    simp only [Bool.false_eq_true, if_false]
    rw [hbs]

/-- Witness for C7's early-abandon half: a never-matching generator with the
flag set from attempt 100 on; the batch is abandoned at the first re-check
and the counter is untouched. -/
theorem batch_cancellation_frame_witness :
    batchStep envCancel [65] true 0 batchSize 0 0 = BatchOut.ret none ∧
    workerLoop envCancel [65] true 1 0 0 = (none, 0) :=
  (batch_cancellation_frame envCancel [65] true 0 0 0 (fun _ _ _ => rfl)).1
    ⟨100, by decide, by decide, by decide, by decide⟩

/-- to_lowercase hits f exactly on f itself and, when f is a lowercase
letter, on its uppercase variant (for f not an uppercase letter). -/
theorem to_lowercase_eq_iff (f x : Nat) (hfnu : ¬(65 ≤ f ∧ f ≤ 90)) :
    to_lowercase x = f ↔ (x = f ∨ (97 ≤ f ∧ f ≤ 122 ∧ x = f - 32)) := by
  unfold to_lowercase
  split_ifs with h
  · omega
  · omega

/-- firstIdx only depends on the predicate pointwise. -/
theorem firstIdx_congr (p q : Nat → Bool) (hpq : ∀ x, p x = q x) :
    ∀ l : List Nat, firstIdx p l = firstIdx q l := by
  intro l
  induction l with
  | nil => rfl
  | cons b t ih => rw [firstIdx, firstIdx, hpq b, ih]

/-- firstIdx finds nothing exactly when no position satisfies the predicate. -/
theorem firstIdx_none_iff (p : Nat → Bool) :
    ∀ l : List Nat, firstIdx p l = none ↔ ∀ k, k < l.length → p (l.getD k 0) = false := by
  intro l
  induction l with
  | nil => simp [firstIdx]
  | cons b t ih =>
    rw [firstIdx]
    cases hpb : p b with
    | true =>
      rw [if_pos rfl]
      constructor
      · intro h; exact Option.noConfusion h
      · intro h
        have h0 := h 0 (by simp)
        rw [List.getD_cons_zero, hpb] at h0
        exact absurd h0 (by simp)
    | false =>
      simp only [Bool.false_eq_true, if_false, Option.map_eq_none']
      rw [ih]
      constructor
      · intro h k hk
        cases k with
        | zero => rw [List.getD_cons_zero]; exact hpb
        | succ k' =>
          rw [List.getD_cons_succ]
          exact h k' (by simpa using hk)
      · intro h k hk
        have hk1 := h (k + 1) (by simpa using Nat.succ_lt_succ hk)
        rw [List.getD_cons_succ] at hk1
        exact hk1

/-- What a successful firstIdx search means: the found position is in range,
satisfies the predicate, and is the least such position. -/
theorem firstIdx_some (p : Nat → Bool) :
    ∀ (l : List Nat) (k : Nat), firstIdx p l = some k →
      k < l.length ∧ p (l.getD k 0) = true ∧ ∀ m, m < k → p (l.getD m 0) = false := by
  intro l
  induction l with
  | nil => intro k h; exact Option.noConfusion h
  | cons b t ih =>
    intro k h
    rw [firstIdx] at h
    cases hpb : p b with
    | true =>
      rw [hpb, if_pos rfl] at h
      injection h with hk
      subst hk
      refine ⟨by simp, ?_, ?_⟩
      · rw [List.getD_cons_zero]; exact hpb
      · intro m hm; omega
    | false =>
      rw [hpb] at h
      simp only [Bool.false_eq_true, if_false] at h
      cases hft : firstIdx p t with
      | none => rw [hft] at h; exact Option.noConfusion h
      | some kp =>
        rw [hft] at h
        simp only [Option.map_some'] at h
        injection h with hk
        subst hk
        obtain ⟨hk1, hk2, hk3⟩ := ih kp hft
        refine ⟨by simpa using Nat.succ_lt_succ hk1, ?_, ?_⟩
        · rw [List.getD_cons_succ]; exact hk2
        · intro m hm
          cases m with
          | zero => rw [List.getD_cons_zero]; exact hpb
          | succ mp =>
            rw [List.getD_cons_succ]
            exact hk3 mp (by omega)

/-- getD through drop. -/
theorem getD_drop : ∀ (l : List Nat) (i m : Nat), (l.drop i).getD m 0 = l.getD (i + m) 0 := by
  intro l
  induction l with
  | nil => intro i m; rw [List.drop_nil]; rfl
  | cons b t ih =>
    intro i m
    cases i with
    | zero =>
      rw [List.drop_zero, Nat.zero_add]
    | succ ip =>
      rw [List.drop_succ_cons, ih ip m,
        show ip + 1 + m = (ip + m) + 1 by omega, List.getD_cons_succ]

/-- getD through map to_lowercase (to_lowercase fixes the default 0). -/
theorem getD_map_lower : ∀ (l : List Nat) (k : Nat),
    (l.map to_lowercase).getD k 0 = to_lowercase (l.getD k 0) := by
  intro l
  induction l with
  | nil =>
    intro k
    rw [List.map_nil]
    rfl
  | cons b t ih =>
    intro k
    cases k with
    | zero => rw [List.map_cons, List.getD_cons_zero, List.getD_cons_zero]
    | succ kp => rw [List.map_cons, List.getD_cons_succ, List.getD_cons_succ]; exact ih kp

/-- A byte list without uppercase ASCII letters is fixed by lower-casing. -/
theorem map_lower_of_nouppercase : ∀ n : List Nat, (∀ b ∈ n, ¬(65 ≤ b ∧ b ≤ 90)) →
    n.map to_lowercase = n := by
  intro n
  induction n with
  | nil => intro _; rfl
  | cons b t ih =>
    intro h
    rw [List.map_cons, ih (fun x hx => h x (List.mem_cons_of_mem b hx))]
    congr 1
    have hb := h b (List.mem_cons_self b t)
    unfold to_lowercase
    rw [if_neg hb]

/-- The memchr2-or-memchr dispatch of the case-insensitive scan (for a first
needle byte that is not an uppercase letter) searches exactly for positions
whose lower-cased byte equals that first byte. -/
theorem first_scan_eq (f fU : Nat)
    (hfU : fU = if 97 ≤ f ∧ f ≤ 122 then f - 32 else f)
    (hfnu : ¬(65 ≤ f ∧ f ≤ 90)) (l : List Nat) :
    (if f ≠ fU then memchr2 f fU l else memchr f l) =
    firstIdx (fun x => decide (to_lowercase x = f)) l := by
  by_cases hlow : 97 ≤ f ∧ f ≤ 122
  · have hfU2 : fU = f - 32 := by rw [hfU, if_pos hlow]
    have hne : f ≠ fU := by omega
    rw [if_pos hne, memchr2]
    apply firstIdx_congr
    intro x
    apply bool_eq_of_iff
    simp only [Bool.or_eq_true, beq_iff_eq, decide_eq_true_eq]
    rw [to_lowercase_eq_iff f x hfnu, hfU2]
    omega
  · have hfU2 : fU = f := by rw [hfU, if_neg hlow]
    have hne : ¬(f ≠ fU) := by omega
    rw [if_neg hne, memchr]
    apply firstIdx_congr
    intro x
    apply bool_eq_of_iff
    simp only [beq_iff_eq, decide_eq_true_eq]
    rw [to_lowercase_eq_iff f x hfnu]
    omega

/-- The verification loop succeeds exactly when every checked offset agrees
after lower-casing the haystack byte. -/
theorem verifyRest_iff (haystack needle : List Nat) (pos : Nat) :
    ∀ (rem j : Nat), verifyRest haystack needle pos j rem = true ↔
      ∀ t, t < rem →
        to_lowercase (haystack.getD (pos + (j + t)) 0) = needle.getD (j + t) 0 := by
  intro rem
  induction rem with
  | zero =>
    intro j
    constructor
    · intro _ t ht
      exact absurd ht (by omega)
    · intro _
      rfl
  | succ rem ih =>
    intro j
    rw [verifyRest, Bool.and_eq_true, beq_iff_eq, ih (j + 1)]
    constructor
    · rintro ⟨h0, hrest⟩ t ht
      cases t with
      | zero => simpa using h0
      | succ tp =>
        have hr := hrest tp (by omega)
        rw [show j + 1 + tp = j + (tp + 1) by omega] at hr
        exact hr
    · intro hall
      refine ⟨?_, ?_⟩
      · simpa using hall 0 (by omega)
      · intro tp htp
        have hr := hall (tp + 1) (by omega)
        rw [show j + (tp + 1) = j + 1 + tp by omega] at hr
        exact hr

/-- startsWithBytes is a pointwise comparison over the needle's length. -/
theorem startsWith_iff : ∀ (l m : List Nat), startsWithBytes l m = true ↔
    (m.length ≤ l.length ∧ ∀ j, j < m.length → l.getD j 0 = m.getD j 0) := by
  intro l m
  induction m generalizing l with
  | nil => cases l <;> simp [startsWithBytes]
  | cons b bs ih =>
    cases l with
    | nil =>
      constructor
      · intro h
        exact Bool.noConfusion h
      · rintro ⟨hlen, _⟩
        exfalso
        simp at hlen
    | cons a as =>
      rw [startsWithBytes, Bool.and_eq_true, beq_iff_eq, ih as]
      constructor
      · rintro ⟨hab, hlen, hp⟩
        refine ⟨by simpa using Nat.succ_le_succ hlen, ?_⟩
        intro j hj
        cases j with
        | zero =>
          rw [List.getD_cons_zero, List.getD_cons_zero]
          exact hab
        | succ jp =>
          rw [List.getD_cons_succ, List.getD_cons_succ]
          exact hp jp (by simpa using hj)
      · rintro ⟨hlen, hp⟩
        refine ⟨?_, by simpa using hlen, ?_⟩
        · have h0 := hp 0 (by simp)
          rw [List.getD_cons_zero, List.getD_cons_zero] at h0
          exact h0
        · intro j hj
          have hj1 := hp (j + 1) (by simpa using Nat.succ_lt_succ hj)
          rw [List.getD_cons_succ, List.getD_cons_succ] at hj1
          exact hj1

/-- The naive search succeeds exactly when the needle occurs at some
position. -/
theorem naiveContains_iff (m : List Nat) : ∀ l : List Nat,
    naiveContains m l = true ↔
    ∃ i, i + m.length ≤ l.length ∧ ∀ j, j < m.length → l.getD (i + j) 0 = m.getD j 0 := by
  intro l
  induction l with
  | nil =>
    rw [naiveContains, startsWith_iff]
    simp only [List.length_nil]
    constructor
    · rintro ⟨hlen, hp⟩
      refine ⟨0, by omega, ?_⟩
      intro j hj
      rw [Nat.zero_add]
      exact hp j hj
    · rintro ⟨i, hi, hp⟩
      refine ⟨by omega, ?_⟩
      intro j hj
      have h1 := hp j hj
      rw [List.getD_nil] at h1
      rw [List.getD_nil]
      exact h1
  | cons a tl ih =>
    rw [naiveContains, Bool.or_eq_true, startsWith_iff, ih]
    constructor
    · rintro (⟨hlen, hp⟩ | ⟨i, hi, hp⟩)
      · refine ⟨0, by rw [Nat.zero_add]; exact hlen, ?_⟩
        intro j hj
        rw [Nat.zero_add]
        exact hp j hj
      · refine ⟨i + 1, by simp only [List.length_cons]; omega, ?_⟩
        intro j hj
        rw [show i + 1 + j = (i + j) + 1 by omega, List.getD_cons_succ]
        exact hp j hj
    · rintro ⟨i, hi, hp⟩
      cases i with
      | zero =>
        left
        refine ⟨by rw [Nat.zero_add] at hi; exact hi, ?_⟩
        intro j hj
        have h1 := hp j hj
        rw [Nat.zero_add] at h1
        exact h1
      | succ ip =>
        right
        refine ⟨ip, by simp only [List.length_cons] at hi; omega, ?_⟩
        intro j hj
        have h1 := hp j hj
        rw [show ip + 1 + j = (ip + j) + 1 by omega, List.getD_cons_succ] at h1
        exact h1

/-- The spec's lower-case-both-then-search reference succeeds exactly when
there is a case-insensitive match position (for needles without uppercase
ASCII letters). -/
theorem refContains_iff (haystack needle : List Nat)
    (hlc : ∀ b ∈ needle, ¬(65 ≤ b ∧ b ≤ 90)) :
    refContainsIgnoreCase haystack needle = true ↔ ∃ i, matchAt haystack needle i := by
  rw [refContainsIgnoreCase, map_lower_of_nouppercase needle hlc, naiveContains_iff]
  simp only [List.length_map]
  constructor
  · rintro ⟨i, hi, hp⟩
    refine ⟨i, hi, ?_⟩
    intro j hj
    have h1 := hp j hj
    rw [getD_map_lower] at h1
    exact h1
  · rintro ⟨i, hi, hp⟩
    refine ⟨i, hi, ?_⟩
    intro j hj
    rw [getD_map_lower]
    exact hp j hj

/-- Correctness of the scan-and-verify loop of contains_bytes_ignore_case:
for a multi-byte needle without uppercase ASCII letters that fits in the
haystack, and enough fuel, the loop finds exactly the positions at or after
`start` where the needle matches case-insensitively. -/
theorem cbicLoop_iff (haystack needle : List Nat) (f fU : Nat)
    (hf : f = needle.getD 0 0)
    (hfU : fU = if 97 ≤ f ∧ f ≤ 122 then f - 32 else f)
    (h2 : 2 ≤ needle.length) (hnh : needle.length ≤ haystack.length)
    (hlc : ∀ b ∈ needle, ¬(65 ≤ b ∧ b ≤ 90)) :
    ∀ fuel start, haystack.length + 1 - start ≤ fuel →
    (cbicLoop haystack needle f fU start fuel = true ↔
      ∃ i, start ≤ i ∧ matchAt haystack needle i) := by
  have hfnu : ¬(65 ≤ f ∧ f ≤ 90) := by
    rw [hf]
    refine hlc _ ?_
    cases needle with
    | nil => simp at h2
    | cons b t =>
      rw [List.getD_cons_zero]
      exact List.mem_cons_self b t
  intro fuel
  induction fuel with
  | zero =>
    intro start hfuel
    constructor
    · intro hb
      rw [cbicLoop] at hb
      exact Bool.noConfusion hb
    · rintro ⟨i, hsi, him, _⟩
      exact absurd him (by omega)
  | succ fuel ih =>
    intro start hfuel
    rw [cbicLoop]
    by_cases hguard : start ≤ haystack.length - needle.length
    · rw [if_pos hguard, first_scan_eq f fU hfU hfnu]
      cases hfind : firstIdx (fun x => decide (to_lowercase x = f)) (haystack.drop start) with
      | none =>
        have hnone := (firstIdx_none_iff _ _).mp hfind
        constructor
        · intro hb
          exact Bool.noConfusion hb
        · rintro ⟨i, hsi, him, hieq⟩
          exfalso
          have hp := hnone (i - start) (by rw [List.length_drop]; omega)
          rw [getD_drop, show start + (i - start) = i by omega] at hp
          simp only [decide_eq_false_iff_not] at hp
          have hm0 := hieq 0 (by omega)
          simp only [Nat.add_zero] at hm0
          rw [← hf] at hm0
          exact hp hm0
      | some offset =>
        dsimp only
        obtain ⟨hoff_lt, hoff_p, hoff_min⟩ := firstIdx_some _ _ _ hfind
        rw [List.length_drop] at hoff_lt
        rw [getD_drop] at hoff_p
        simp only [decide_eq_true_eq] at hoff_p
        have hnomatch_lt : ∀ i, start ≤ i → i < start + offset →
            ¬ matchAt haystack needle i := by
          intro i h1i h2i hmi
          have hp := hoff_min (i - start) (by omega)
          rw [getD_drop, show start + (i - start) = i by omega] at hp
          simp only [decide_eq_false_iff_not] at hp
          have hm0 := hmi.2 0 (by omega)
          simp only [Nat.add_zero] at hm0
          rw [← hf] at hm0
          exact hp hm0
        by_cases hbound : start + offset + needle.length > haystack.length
        · rw [if_pos hbound]
          constructor
          · intro hb
            exact Bool.noConfusion hb
          · rintro ⟨i, hsi, him, hieq⟩
            exfalso
            rcases Nat.lt_or_ge i (start + offset) with hlt | hge
            · exact hnomatch_lt i hsi hlt ⟨him, hieq⟩
            · omega
        · rw [if_neg hbound]
          by_cases hver :
              verifyRest haystack needle (start + offset) 1 (needle.length - 1) = true
          · rw [if_pos hver]
            constructor
            · intro _
              refine ⟨start + offset, by omega, by omega, ?_⟩
              intro j hj
              cases j with
              | zero =>
                simp only [Nat.add_zero]
                rw [← hf]
                exact hoff_p
              | succ jp =>
                have hvr := (verifyRest_iff haystack needle (start + offset)
                  (needle.length - 1) 1).mp hver jp (by omega)
                rw [show 1 + jp = jp + 1 by omega] at hvr
                exact hvr
            · intro _
              rfl
          · rw [if_neg hver]
            rw [ih (start + offset + 1) (by omega)]
            constructor
            · rintro ⟨i, hi, hm⟩
              exact ⟨i, by omega, hm⟩
            · rintro ⟨i, hi, hm⟩
              rcases Nat.lt_or_ge i (start + offset) with hlt | hge
              · exact absurd hm (hnomatch_lt i hi hlt)
              · rcases Nat.eq_or_lt_of_le hge with heq | hgt
                · exfalso
                  apply hver
                  refine (verifyRest_iff haystack needle (start + offset)
                    (needle.length - 1) 1).mpr ?_
                  intro t ht
                  have hmj := hm.2 (1 + t) (by omega)
                  rw [heq]
                  exact hmj
                · exact ⟨i, by omega, hm⟩
    · rw [if_neg hguard]
      constructor
      · intro hb
        exact Bool.noConfusion hb
      · rintro ⟨i, hsi, him, _⟩
        exact absurd him (by omega)

/-- Correctness of the single-byte branch of contains_bytes_ignore_case (for
a needle byte that is not an uppercase letter): the memchr2/memchr dispatch
over both case variants finds exactly the case-insensitive match positions. -/
theorem single_scan_iff (haystack needle : List Nat) (t u : Nat)
    (ht : t = needle.getD 0 0)
    (hu : u = if 97 ≤ t ∧ t ≤ 122 then t - 32 else t)
    (h1 : needle.length = 1)
    (hfnu : ¬(65 ≤ t ∧ t ≤ 90)) :
    ((if t ≠ u then (memchr2 t u haystack).isSome else (memchr t haystack).isSome) = true ↔
      ∃ i, matchAt haystack needle i) := by
  rw [← apply_ite Option.isSome, first_scan_eq t u hu hfnu]
  cases hfi : firstIdx (fun x => decide (to_lowercase x = t)) haystack with
  | none =>
    simp only [Option.isSome_none]
    constructor
    · intro hb
      exact Bool.noConfusion hb
    · rintro ⟨i, him, hieq⟩
      exfalso
      have hnone := (firstIdx_none_iff _ _).mp hfi
      have hp := hnone i (by omega)
      simp only [decide_eq_false_iff_not] at hp
      have hm0 := hieq 0 (by omega)
      simp only [Nat.add_zero] at hm0
      rw [← ht] at hm0
      exact hp hm0
  | some k =>
    obtain ⟨hk1, hk2, _⟩ := firstIdx_some _ _ _ hfi
    simp only [Option.isSome_some]
    constructor
    · intro _
      refine ⟨k, by omega, ?_⟩
      intro j hj
      have hj0 : j = 0 := by omega
      subst hj0
      simp only [Nat.add_zero]
      rw [← ht]
      simp only [decide_eq_true_eq] at hk2
      exact hk2
    · intro _
      trivial

/-- Claim C1 (amended): for every haystack and every non-empty needle that
contains no uppercase ASCII letter — in particular the pre-lowercased
needles the worker always passes in case-insensitive mode —
contains_bytes_ignore_case returns true exactly when the ASCII-lowercased
haystack contains the needle, agreeing with the naive
lower-case-both-then-search reference; this covers needles of length 1 and
greater and needles whose first byte has no case variant. -/
theorem contains_ignore_case_agrees_on_lowercase_needles
    (haystack needle : List Nat) (hne : needle ≠ [])
    (hlc : ∀ b ∈ needle, ¬(65 ≤ b ∧ b ≤ 90)) :
    contains_bytes_ignore_case haystack needle = refContainsIgnoreCase haystack needle := by
  have hfnu : ¬(65 ≤ needle.getD 0 0 ∧ needle.getD 0 0 ≤ 90) := by
    refine hlc _ ?_
    cases needle with
    | nil => exact absurd rfl hne
    | cons b tl =>
      rw [List.getD_cons_zero]
      exact List.mem_cons_self b tl
  apply bool_eq_of_iff
  rw [refContains_iff haystack needle hlc]
  rw [contains_bytes_ignore_case, if_neg hne]
  by_cases hlen : needle.length > haystack.length
  · rw [if_pos hlen]
    constructor
    · intro hb
      exact Bool.noConfusion hb
    · rintro ⟨i, him, _⟩
      exact absurd him (by omega)
  · rw [if_neg hlen]
    by_cases h1 : needle.length = 1
    · rw [if_pos h1]
      dsimp only
      exact single_scan_iff haystack needle _ _ rfl rfl h1 hfnu
    · rw [if_neg h1]
      dsimp only
      have hlen2 : 2 ≤ needle.length := by
        have h0 : needle.length ≠ 0 := by
          intro hz
          exact hne (List.length_eq_zero.mp hz)
        omega
      rw [cbicLoop_iff haystack needle _ _ rfl rfl hlen2 (by omega) hlc
        (haystack.length + 1) 0 (by omega)]
      constructor
      · rintro ⟨i, _, hm⟩
        exact ⟨i, hm⟩
      · rintro ⟨i, hm⟩
        exact ⟨i, Nat.zero_le i, hm⟩

/-- Witness for C1's amended statement on the spec's concrete scenario:
needle "abc", haystack "XYZaBc123". -/
theorem contains_ignore_case_agrees_witness :
    contains_bytes_ignore_case [88, 89, 90, 97, 66, 99, 49, 50, 51] [97, 98, 99] =
      refContainsIgnoreCase [88, 89, 90, 97, 66, 99, 49, 50, 51] [97, 98, 99] :=
  contains_ignore_case_agrees_on_lowercase_needles
    [88, 89, 90, 97, 66, 99, 49, 50, 51] [97, 98, 99] (by decide) (by decide)

/-- Claim C1 (counterexample): for needle "A" (an uppercase letter) and
haystack "a", contains_bytes_ignore_case returns false although the
lower-case-both-then-search reference finds a match, so the claimed
equivalence fails for arbitrary non-empty needles. -/
theorem contains_ignore_case_uppercase_needle_cex :
    contains_bytes_ignore_case [97] [65] = false ∧
    refContainsIgnoreCase [97] [65] = true :=
  ⟨by decide, by decide⟩
